import Mathlib

/-
  Verification development for the commitCron repository (Go).

  The Go sources are shallowly embedded as pure Lean functions:
    - network effects (event fetch, repository-existence probe, directory
      listing, file upload) are supplied as explicit oracles / response values;
    - the time.Now based day comparison is parametrised by the current
      timestamp and the local timezone offset (seconds); converting a Unix
      timestamp to a local calendar date is modelled by floor division of the
      shifted timestamp by 86400, so two timestamps fall on the same local
      calendar day exactly when those quotients agree;
    - Go maps become association lists, channels become explicit result
      values, goroutine exits become return values.
-/

namespace CommitCron

/-- One commit record inside a PushEvent payload
    (src/contributions/contributions.go, Event.Payload.Commits). -/
structure Commit where
  sha : String
  message : String
deriving DecidableEq, Repr

/-- An activity event returned by the events endpoint
    (src/contributions/contributions.go, struct Event; the nested Payload and
    Repo structs are flattened into fields). createdAt is a Unix timestamp. -/
structure Event where
  createdAt : Int
  type : String
  ref : String
  refType : String
  commits : List Commit
  repoName : String
deriving DecidableEq, Repr

/-- Local calendar day of a timestamp: shift by the timezone offset and take
    the floor quotient by 86400 seconds. Models other.Local().Date() in
    sameDay (src/contributions/contributions.go). -/
def localDay (tz t : Int) : Int := (t + tz) / 86400

/-- sameDay (src/contributions/contributions.go): the event time and the
    current time fall on the same local calendar day. -/
def sameDay (tz now t : Int) : Bool := localDay tz t = localDay tz now

/-- Outcome of one GET /repos/name probe, as seen by repoExists:
    a transport failure of client.Do, a JSON decode failure, or a decoded
    body whose message field is the given string (empty when absent). -/
inductive RepoResp where
  | netErr (e : String)
  | decodeErr (e : String)
  | body (msg : String)
deriving DecidableEq, Repr

/-- Lookup in the repoMap cache (a Go map modelled as an association list). -/
def lookupCache (cache : List (String × Bool)) (name : String) : Option Bool :=
  (cache.find? (fun p => p.1 = name)).map (fun p => p.2)

/-- repoExists (src/contributions/contributions.go lines 57-96).
    Returns (existence-or-error, updated cache, whether a network request was
    issued). Faithful to the source: a cache hit answers without a request;
    a body with empty message caches true, a body with message "Not Found"
    caches false, and any other message returns true WITHOUT updating the
    cache (the source stores nothing on that path). -/
def repoExists (oracle : String → RepoResp) (name : String)
    (cache : List (String × Bool)) :
    Except String Bool × List (String × Bool) × Bool :=
  match lookupCache cache name with
  | some value => (.ok value, cache, false)
  | none =>
    match oracle name with
    | .netErr e =>
      (.error ("Error in querying https://api.github.com/repos/" ++ name ++ ": " ++ e),
       cache, true)
    | .decodeErr e =>
      (.error ("Error in decoding the json response from querying https://api.github.com/repos/"
        ++ name ++ ": " ++ e), cache, true)
    | .body msg =>
      if msg = "" then (.ok true, cache ++ [(name, true)], true)
      else if msg = "Not Found" then (.ok false, cache ++ [(name, false)], true)
      else (.ok true, cache, true)

/-- Contribution value of a single same-day event on an existing repository
    (the body of the event loop in GetNumberOfContributionsToday,
    src/contributions/contributions.go lines 148-162). -/
def countEvent (e : Event) : Nat :=
  if e.type = "CreateEvent" then
    if e.refType = "repository" ∨ e.ref = "master" then 1 else 0
  else if e.type = "PullRequestEvent" then 1
  else if e.type = "PushEvent" then
    (e.commits.filter (fun c => c.message ≠ "Update README.md")).length
  else 0

/-- State threaded through the event loop: the running count, the repoMap
    cache, and (instrumentation) the chronological list of repository names
    for which a network existence request was actually issued. -/
structure CountState where
  count : Nat
  cache : List (String × Bool)
  calls : List String
deriving DecidableEq, Repr

/-- The event loop of GetNumberOfContributionsToday
    (src/contributions/contributions.go lines 140-168): iterate events in the
    given order, stop at the first event not on the current local day, check
    repository existence (memoized) for each same-day event, add the event's
    contribution when the repository exists, abort the run on any existence
    check failure. Returns the final state and the error, if any. -/
def countLoop (oracle : String → RepoResp) (tz now : Int) :
    List Event → CountState → CountState × Option String
  | [], st => (st, none)
  | e :: rest, st =>
    if sameDay tz now e.createdAt then
      match repoExists oracle e.repoName st.cache with
      | (res, cache1, called) =>
        let st1 : CountState :=
          { st with cache := cache1,
                    calls := st.calls ++ (if called then [e.repoName] else []) }
        match res with
        | .error err => (st1, some err)
        | .ok ex =>
          countLoop oracle tz now rest
            { st1 with count := st1.count + (if ex then countEvent e else 0) }
    else (st, none)

/-- Reference implementation following the spec's words: a full scan of the
    WHOLE event list that applies the same per-event counting rules, with no
    early stop (spec section 8, ordering invariant). Identical to countLoop
    except that an event not on the current day is skipped instead of ending
    the scan. -/
def naiveFullScanLoop (oracle : String → RepoResp) (tz now : Int) :
    List Event → CountState → CountState × Option String
  | [], st => (st, none)
  | e :: rest, st =>
    if sameDay tz now e.createdAt then
      match repoExists oracle e.repoName st.cache with
      | (res, cache1, called) =>
        let st1 : CountState :=
          { st with cache := cache1,
                    calls := st.calls ++ (if called then [e.repoName] else []) }
        match res with
        | .error err => (st1, some err)
        | .ok ex =>
          naiveFullScanLoop oracle tz now rest
            { st1 with count := st1.count + (if ex then countEvent e else 0) }
    else naiveFullScanLoop oracle tz now rest st

/-- Outcome of the GET users/name/events request in
    GetNumberOfContributionsToday: a transport failure of client.Do, or a
    response with an HTTP status code and (when the status is read) the JSON
    decode result of its body. -/
inductive FetchOutcome where
  | reqErr (e : String)
  | resp (status : Nat) (decode : Except String (List Event))

/-- All external inputs of one counting run: the events-endpoint response,
    the per-repository existence probe responses, the timezone offset and the
    current timestamp. -/
structure RunInput where
  fetch : FetchOutcome
  oracle : String → RepoResp
  tz : Int
  now : Int

/-- GetNumberOfContributionsToday (src/contributions/contributions.go lines
    103-171): any transport failure, non-200 status, or body decode failure
    returns (-1, error); otherwise the event loop runs with an empty cache
    and the final count is returned with no error, or (-1, error) if an
    existence check failed mid-scan. -/
def GetNumberOfContributionsToday (inp : RunInput) : Int × Option String :=
  match inp.fetch with
  | .reqErr e => (-1, some e)
  | .resp status decode =>
    if status ≠ 200 then (-1, some ("Search query failed: " ++ toString status))
    else
      match decode with
      | .error e => (-1, some ("Error in decoding json from response body: " ++ e))
      | .ok events =>
        match countLoop inp.oracle inp.tz inp.now events ⟨0, [], []⟩ with
        | (_, some err) => (-1, some err)
        | (st, none) => ((st.count : Int), none)

/-- The result a run would have when driven by the naive full scan instead of
    the early-stop loop (reference for the ordering-invariant claim). -/
def naiveFullScanRun (inp : RunInput) : Int × Option String :=
  match inp.fetch with
  | .reqErr e => (-1, some e)
  | .resp status decode =>
    if status ≠ 200 then (-1, some ("Search query failed: " ++ toString status))
    else
      match decode with
      | .error e => (-1, some ("Error in decoding json from response body: " ++ e))
      | .ok events =>
        match naiveFullScanLoop inp.oracle inp.tz inp.now events ⟨0, [], []⟩ with
        | (_, some err) => (-1, some err)
        | (st, none) => ((st.count : Int), none)


/-- Specification predicate used to state the error-handling claim: some
    transport, HTTP-status, decode, or mid-scan existence failure occurs in
    the run described by inp. -/
def runFailure (inp : RunInput) : Bool :=
  match inp.fetch with
  | .reqErr _ => true
  | .resp status decode =>
    if status ≠ 200 then true
    else
      match decode with
      | .error _ => true
      | .ok events => ((countLoop inp.oracle inp.tz inp.now events ⟨0, [], []⟩).2).isSome

/-- A single entry of a directory listing (src/cmd/repo.go, struct
    RepoContent; the nested Links struct is flattened to selfLink; the Error
    field is never read or written by the source and is omitted). The same
    struct is consumed by the file mutator, where an empty sha marks a file
    still to be created. -/
structure RepoContent where
  name : String
  path : String
  sha : String
  type : String
  selfLink : String
deriving DecidableEq, Repr

/-- fileCanBeModified (src/cmd/repo.go lines 26-35): the name ends in one of
    the allow-listed extensions. -/
def fileCanBeModified (fileName : String) : Bool :=
  [".js", ".java", ".go", ".c", ".cpp", ".txt"].any (fun s => fileName.endsWith s)

/-- The repository tree as the directory-listing service: an association list
    from listing URL to decoded entries. A URL absent from the tree yields no
    entries. -/
def lookupListing (tree : List (String × List RepoContent)) (url : String) :
    List RepoContent :=
  ((tree.find? (fun p => p.1 = url)).map Prod.snd).getD []

/-- State shared across the whole walk: the beenThere visited set (a Go map
    modelled as a list of URLs) and, as instrumentation, the chronological
    list of URLs fetched. -/
structure WalkState where
  visited : List String
  fetched : List String
deriving DecidableEq, Repr

/-- The file-collecting loop of GetRepoContents (src/cmd/repo.go lines
    76-86): scan the listing, returning early (flag true) when the result
    already holds n entries, otherwise appending entries of kind file whose
    name has an allow-listed extension. -/
def fileScan (n : Nat) : List RepoContent → List RepoContent → List RepoContent × Bool
  | [], res => (res, false)
  | v :: rest, res =>
    if res.length = n then (res, true)
    else fileScan n rest
      (if v.type = "file" ∧ fileCanBeModified v.name then res ++ [v] else res)

/-- The subdirectory loop of GetRepoContents (src/cmd/repo.go lines 89-94):
    recurse (through walkF) into each entry of kind dir whose self link is
    not yet in the visited set, threading the shared walk state. -/
def walkDirs (walkF : String → WalkState → Option WalkState) :
    List RepoContent → WalkState → Option WalkState
  | [], st => some st
  | v :: rest, st =>
    if v.type = "dir" ∧ v.selfLink ∉ st.visited then
      match walkF v.selfLink st with
      | none => none
      | some st1 => walkDirs walkF rest st1
    else walkDirs walkF rest st

/-- GetRepoContents, visited-set variant (src/cmd/repo.go lines 40-101), as
    a pure walk: mark the URL visited, fetch its listing, collect files
    (early-returning when full), then recurse into unvisited subdirectories.
    The result list is passed BY VALUE into recursive calls exactly as the Go
    slice is, so a child call's appends are invisible to its caller; only the
    shared visited set (a map in the source) is threaded through. The walk
    returns the final local result of the frame together with the shared
    state; the fuel argument bounds the nesting depth, and none models a call
    that would nest deeper than the fuel allows. -/
def walk (tree : List (String × List RepoContent)) (n : Nat) :
    Nat → String → List RepoContent → WalkState → Option (List RepoContent × WalkState)
  | 0, _, _, _ => none
  | fuel + 1, url, res, st =>
    let st1 : WalkState := ⟨st.visited ++ [url], st.fetched ++ [url]⟩
    let fs := fileScan n (lookupListing tree url) res
    if fs.2 then some (fs.1, st1)
    else
      (walkDirs (fun u s => (walk tree n fuel u fs.1 s).map Prod.snd)
        (lookupListing tree url) st1).map (fun st2 => (fs.1, st2))

/-- Number of listing URLs of the tree not yet in the visited set: the
    quantity that bounds how deep the visited-set walk can nest. -/
def unvisitedCount (tree : List (String × List RepoContent)) (visited : List String) : Nat :=
  (tree.map Prod.fst).countP (fun u => decide (u ∉ visited))

/-- Channel state observable from the draft walk of src/unnamed/part_002:
    the payloads sent so far on the output channel, and whether a terminate
    token is pending on the terminate channel. -/
structure DraftState where
  outputs : List (List RepoContent)
  term : Bool
deriving DecidableEq, Repr

/-- The subdirectory loop of the draft GetRepoContents (src/unnamed/part_002
    lines 124-150): before each entry, a non-blocking terminate check
    (resending the token and returning early when present), then the
    full-result check (sending the result and a terminate token), then
    recursion into entries of kind dir. The returned flag records an early
    return out of the whole call. -/
def walkDraftDirs (recur : String → DraftState → Option DraftState) (n : Nat)
    (res : List RepoContent) :
    List RepoContent → DraftState → Option (DraftState × Bool)
  | [], st => some (st, false)
  | v :: rest, st =>
    if st.term then some (st, true)
    else if res.length = n then some (⟨st.outputs ++ [res], true⟩, true)
    else if v.type = "dir" then
      match recur v.selfLink st with
      | none => none
      | some st1 => walkDraftDirs recur n res rest st1
    else walkDraftDirs recur n res rest st

/-- GetRepoContents, draft variant WITHOUT a visited set (src/unnamed/part_002
    lines 41-165): terminate check, full-result check, fetch, file collection
    (sending result and terminate when full), recursion into every
    subdirectory, and a final send of the local result when returning from
    the root URL. The result list is passed by value into recursive calls and
    the channel state is threaded; none models fuel exhaustion, i.e. a call
    nested deeper than the given bound. -/
def walkDraft (tree : List (String × List RepoContent)) (n : Nat) (root : String) :
    Nat → String → List RepoContent → DraftState → Option DraftState
  | 0, _, _, _ => none
  | fuel + 1, url, res, st =>
    if st.term then some st
    else if res.length = n then some ⟨st.outputs ++ [res], true⟩
    else
      let fs := fileScan n (lookupListing tree url) res
      if fs.2 then some ⟨st.outputs ++ [fs.1], true⟩
      else
        match walkDraftDirs (fun u s => walkDraft tree n root fuel u fs.1 s) n fs.1
            (lookupListing tree url) st with
        | none => none
        | some (st1, earlyRet) =>
          if earlyRet then some st1
          else if url = root then some ⟨st1.outputs ++ [fs.1], st1.term⟩
          else some st1

/-- The NameChange goto loop of UpdateFilesAndCreateRemaining
    (src/cmd/update.go lines 27-41): try gen k, gen (k+1), ... until a
    candidate (with the .go extension appended, as the source does) equals no
    current descriptor's path; returns the accepted name and the next
    generator index. gen models successive sanitized time.Now().String()
    readings; fuel bounds the retries, none modelling a goto loop that never
    finds a fresh name. -/
def pickName (gen : Nat → String) (contents : List RepoContent) :
    Nat → Nat → Option (String × Nat)
  | _, 0 => none
  | k, fuel + 1 =>
    if contents.any (fun v => gen k ++ ".go" = v.path) then
      pickName gen contents (k + 1) fuel
    else some (gen k ++ ".go", k + 1)

/-- The synthesis loop of UpdateFilesAndCreateRemaining (src/cmd/update.go
    lines 27-44): while the list is shorter than the required count (the
    slice capacity in the source), pick a fresh generated name and append a
    create descriptor for it: empty sha, kind file, name and path both the
    generated name, no self link. The loop shortens the deficit by one each
    iteration; steps is the iteration budget (the caller passes the exact
    deficit, which is what the loop performs), and none records a budget
    miss. -/
def synthesize (gen : Nat → String) (nRequired : Nat) :
    Nat → List RepoContent → Nat → Nat → Option (List RepoContent)
  | 0, contents, _, _ =>
    if contents.length < nRequired then none else some contents
  | steps + 1, contents, k, fuel =>
    if contents.length < nRequired then
      match pickName gen contents k fuel with
      | none => none
      | some (nm, k1) =>
        synthesize gen nRequired steps (contents ++ [⟨nm, nm, "", "file", ""⟩]) k1 fuel
    else some contents

/-- Network outcome of the single PUT request of one UploadFile call
    (src/cmd/update.go): request construction failure, transport failure, or
    success. (json.Marshal of a map of strings cannot fail and is not
    modelled.) -/
inductive UploadOutcome where
  | reqErr (e : String)
  | netErr (e : String)
  | ok
deriving DecidableEq, Repr

/-- The one message an UploadFile call delivers: an error on the error
    channel, or a completion token on the done channel. -/
inductive UploadMsg where
  | err (e : String)
  | done
deriving DecidableEq, Repr

/-- UploadFile (src/cmd/update.go lines 56-108): on request-construction or
    transport failure, send the error and return without a done token;
    otherwise close the body and send done. The commit content and message
    derived from the sha do not influence which message is sent and are kept
    abstract. -/
def UploadFile (outcome : UploadOutcome) (url : String) : UploadMsg :=
  match outcome with
  | .reqErr e => .err ("Error creating PUT request to create file: " ++ e)
  | .netErr e => .err ("Error sending PUT request to " ++ url ++ ": " ++ e)
  | .ok => .done

/-- The upload loop of UpdateFilesAndCreateRemaining (src/cmd/update.go lines
    46-51): exactly one UploadFile call per descriptor, in list order,
    regardless of the outcomes of earlier calls. outcomes gives the network
    outcome of the PUT for each descriptor. -/
def uploadAll (outcomes : RepoContent → UploadOutcome) (contents : List RepoContent) :
    List UploadMsg :=
  contents.map (fun v => UploadFile (outcomes v) v.path)

/-- UpdateFilesAndCreateRemaining (src/cmd/update.go lines 24-52): first
    synthesize create descriptors up to the required count, then upload every
    descriptor. -/
def UpdateFilesAndCreateRemaining (gen : Nat → String)
    (outcomes : RepoContent → UploadOutcome) (nRequired : Nat)
    (contents : List RepoContent) (k fuel : Nat) :
    Option (List RepoContent × List UploadMsg) :=
  (synthesize gen nRequired (nRequired - contents.length) contents k fuel).map
    (fun full => (full, uploadAll outcomes full))

/-- The mutation decision of the coordinator (src/cmd/main.go lines 208-221):
    an absent MIN_CONTRIBUTIONS becomes the in-band value -1, and mutation is
    performed when the counted contributions are below the minimum or the
    minimum equals -1. -/
def shouldMutate (minCont : Option Int) (count : Int) : Bool :=
  let minContributions : Int := match minCont with | some v => v | none => -1
  decide (count < minContributions ∨ minContributions = -1)

/-- External inputs of one coordinator run (src/cmd/main.go main): the
    counter's result, the optional configured minimum, the tree scanner's
    result, and the mutation environment (required count, name generator,
    per-file upload outcomes, retry fuel for name generation). -/
structure CoordInput where
  contribution : Except String Int
  minCont : Option Int
  repoContents : Except String (List RepoContent)
  nRequired : Nat
  gen : Nat → String
  outcomes : RepoContent → UploadOutcome
  nameFuel : Nat

/-- The coordinator (src/cmd/main.go lines 203-266): a counter failure is
    fatal (exit 1); otherwise, when mutation is wanted, a scanner failure is
    fatal, and a successful scan drives UpdateFilesAndCreateRemaining, whose
    per-file messages are drained while the exit code stays 0; when no
    mutation is wanted the scanner is reconciled and the run exits 0. Returns
    the exit code and the drained per-file messages; none models divergence
    of the name-generation loop. -/
def runMain (inp : CoordInput) : Option (Nat × List UploadMsg) :=
  match inp.contribution with
  | .error _ => some (1, [])
  | .ok count =>
    if shouldMutate inp.minCont count then
      match inp.repoContents with
      | .error _ => some (1, [])
      | .ok contents =>
        match UpdateFilesAndCreateRemaining inp.gen inp.outcomes inp.nRequired
            contents 0 inp.nameFuel with
        | none => none
        | some (_, msgs) => some (0, msgs)
    else some (0, [])

/-
  Concrete values used by counterexamples and witnesses.
-/

/-- A pull-request event on repository r with timestamp 0 (start of day 0 in
    zone offset 0). -/
def prDay0 : Event := ⟨0, "PullRequestEvent", "", "", [], "r"⟩

/-- A pull-request event on repository r one day in the future (day 1). -/
def prDay1 : Event := ⟨86400, "PullRequestEvent", "", "", [], "r"⟩

/-- A pull-request event on repository r one day in the past (day -1). -/
def prDayMinus1 : Event := ⟨-86400, "PullRequestEvent", "", "", [], "r"⟩

/-- A same-day push event on repository r whose only commit message is
    exactly the excluded sentinel string. -/
def readmePushDay0 : Event := ⟨0, "PushEvent", "", "", [⟨"abc123", "Update README.md"⟩], "r"⟩

/-- A same-day create event for the master branch of repository r. -/
def createMasterDay0 : Event := ⟨0, "CreateEvent", "master", "branch", [], "r"⟩

/-- An existence oracle under which every repository exists (empty message
    field). -/
def okOracle : String → RepoResp := fun _ => .body ""

/-- An existence oracle answering every probe with the message Moved
    Permanently: the repository is reported as existing, but the source never
    stores that answer in the cache. -/
def movedOracle : String → RepoResp := fun _ => .body "Moved Permanently"

/-- A tree whose root directory contains a single subdirectory entry linking
    back to the root itself (a self cycle). -/
def selfLoopTree : List (String × List RepoContent) :=
  [("root", [⟨"sub", "sub", "abc", "dir", "root"⟩])]

/-- A tree whose root holds no matching file but links to a subdirectory
    holding one modifiable file. -/
def subdirFileTree : List (String × List RepoContent) :=
  [("root", [⟨"sub", "sub", "abc", "dir", "subURL"⟩]),
   ("subURL", [⟨"a.go", "sub/a.go", "def1", "file", ""⟩])]

/-- Two pre-existing modifiable descriptors, as the scanner would deliver
    them. -/
def twoFiles : List RepoContent :=
  [⟨"a.go", "a.go", "sha1", "file", ""⟩, ⟨"b.txt", "b.txt", "sha2", "file", ""⟩]

/-- A deterministic stand-in for the sanitized timestamp strings produced by
    successive time.Now() readings. -/
def genNames : Nat → String := fun k => "t" ++ toString k

/-- Upload outcomes under which the PUT for path a.go fails in transport and
    every other PUT succeeds. -/
def oneFailure : RepoContent → UploadOutcome :=
  fun v => if v.path = "a.go" then .netErr "connection reset" else .ok

/-
  Helper lemmas for the contribution counter.
-/

theorem localDay_mono (tz : Int) {t u : Int} (h : t ≤ u) : localDay tz t ≤ localDay tz u :=
  Int.ediv_le_ediv (by norm_num) (by omega)

theorem fullScan_no_sameDay (oracle : String → RepoResp) (tz now : Int)
    (l : List Event) (st : CountState)
    (h : ∀ e ∈ l, sameDay tz now e.createdAt = false) :
    naiveFullScanLoop oracle tz now l st = (st, none) := by
  induction l with
  | nil => rfl
  | cons e rest ih =>
    have he := h e (List.mem_cons_self e rest)
    simp only [naiveFullScanLoop, he, Bool.false_eq_true, if_false]
    exact ih (fun e2 he2 => h e2 (List.mem_cons_of_mem _ he2))

theorem countLoop_eq_fullScan (oracle : String → RepoResp) (tz now : Int)
    (events : List Event) (st : CountState)
    (hdesc : List.Pairwise (fun a b => b.createdAt < a.createdAt) events)
    (hpast : ∀ e ∈ events, localDay tz e.createdAt ≤ localDay tz now) :
    countLoop oracle tz now events st = naiveFullScanLoop oracle tz now events st := by
  induction events generalizing st with
  | nil => rfl
  | cons e rest ih =>
    rcases List.pairwise_cons.mp hdesc with ⟨hhead, htail⟩
    by_cases hd : sameDay tz now e.createdAt
    · simp only [countLoop, naiveFullScanLoop, hd, if_true]
      rcases hrepo : repoExists oracle e.repoName st.cache with ⟨res, cache1, called⟩
      cases res with
      | error err => simp
      | ok ex =>
        simp only []
        exact ih _ htail (fun e2 he2 => hpast e2 (List.mem_cons_of_mem _ he2))
    · simp only [countLoop, naiveFullScanLoop, hd, Bool.false_eq_true, if_false]
      have hne : localDay tz e.createdAt ≠ localDay tz now := by
        intro hEq
        exact hd (by simp [sameDay, hEq])
      have hlt : localDay tz e.createdAt < localDay tz now :=
        lt_of_le_of_ne (hpast e (List.mem_cons_self e rest)) hne
      refine (fullScan_no_sameDay oracle tz now rest st ?_).symm
      intro e2 he2
      have h2 : e2.createdAt < e.createdAt := hhead e2 he2
      have : localDay tz e2.createdAt ≤ localDay tz e.createdAt := localDay_mono tz (le_of_lt h2)
      simp only [sameDay, decide_eq_false_iff_not]
      omega




theorem lookupCache_some_mem {cache : List (String × Bool)} {name : String} {v : Bool}
    (h : lookupCache cache name = some v) : name ∈ cache.map Prod.fst := by
  rcases hf : cache.find? (fun p => p.1 = name) with _ | p
  · simp [lookupCache, hf] at h
  · have hp := List.find?_some hf
    have hmem := List.mem_of_find?_eq_some hf
    have heq : p.1 = name := by simpa using hp
    exact heq ▸ List.mem_map_of_mem Prod.fst hmem

theorem lookupCache_none_not_mem {cache : List (String × Bool)} {name : String}
    (h : lookupCache cache name = none) : name ∉ cache.map Prod.fst := by
  intro hmem
  rcases List.mem_map.mp hmem with ⟨p, hp, hfst⟩
  have hfind : cache.find? (fun q => q.1 = name) = none := by
    rcases hf : cache.find? (fun q => q.1 = name) with _ | q
    · exact hf
    · simp [lookupCache, hf] at h
  have := List.find?_eq_none.mp hfind p hp
  simp [hfst] at this

theorem repoExists_spec (oracle : String → RepoResp) (name : String)
    (cache : List (String × Bool)) (res : Except String Bool)
    (cache1 : List (String × Bool)) (called : Bool)
    (h : repoExists oracle name cache = (res, cache1, called)) :
    (called = false → cache1 = cache ∧ name ∈ cache.map Prod.fst) ∧
    (called = true → name ∉ cache.map Prod.fst ∧
        ∀ n ∈ cache1.map Prod.fst, n ∈ cache.map Prod.fst ∨ n = name) ∧
    (∀ err, res = .error err → called = true ∧ cache1 = cache) ∧
    (∀ n ∈ cache.map Prod.fst, n ∈ cache1.map Prod.fst) := by
  rcases hlook : lookupCache cache name with _ | v
  · rcases horacle : oracle name with e1 | e1 | msg <;>
      simp only [repoExists, hlook, horacle] at h
    · obtain ⟨rfl, rfl, rfl⟩ := by simpa only [Prod.mk.injEq] using h
      exact ⟨by simp, fun _ => ⟨lookupCache_none_not_mem hlook, fun n hn => Or.inl hn⟩,
        fun err _ => ⟨rfl, rfl⟩, fun n hn => hn⟩
    · obtain ⟨rfl, rfl, rfl⟩ := by simpa only [Prod.mk.injEq] using h
      exact ⟨by simp, fun _ => ⟨lookupCache_none_not_mem hlook, fun n hn => Or.inl hn⟩,
        fun err _ => ⟨rfl, rfl⟩, fun n hn => hn⟩
    · by_cases hmsg : msg = ""
      · rw [if_pos hmsg] at h
        obtain ⟨rfl, rfl, rfl⟩ := by simpa only [Prod.mk.injEq] using h
        refine ⟨by simp, fun _ => ⟨lookupCache_none_not_mem hlook, ?_⟩,
          (by intro err h2; cases h2), (by intro n hn; simp [hn])⟩
        intro n hn
        simp only [List.map_append, List.mem_append] at hn
        rcases hn with hn | hn
        · exact Or.inl hn
        · simp at hn
          exact Or.inr hn
      · rw [if_neg hmsg] at h
        by_cases hnf : msg = "Not Found"
        · rw [if_pos hnf] at h
          obtain ⟨rfl, rfl, rfl⟩ := by simpa only [Prod.mk.injEq] using h
          refine ⟨by simp, fun _ => ⟨lookupCache_none_not_mem hlook, ?_⟩,
            (by intro err h2; cases h2), (by intro n hn; simp [hn])⟩
          intro n hn
          simp only [List.map_append, List.mem_append] at hn
          rcases hn with hn | hn
          · exact Or.inl hn
          · simp at hn
            exact Or.inr hn
        · rw [if_neg hnf] at h
          obtain ⟨rfl, rfl, rfl⟩ := by simpa only [Prod.mk.injEq] using h
          exact ⟨by simp, fun _ => ⟨lookupCache_none_not_mem hlook, fun n hn => Or.inl hn⟩,
            (by intro err h2; cases h2), fun n hn => hn⟩
  · simp only [repoExists, hlook, Prod.mk.injEq] at h
    obtain ⟨rfl, rfl, rfl⟩ := h
    exact ⟨fun _ => ⟨rfl, lookupCache_some_mem hlook⟩, by simp, (by intro err h2; cases h2),
      fun n hn => hn⟩

theorem repoExists_ok_caches (oracle : String → RepoResp) (name : String)
    (cache cache1 : List (String × Bool)) (ex : Bool)
    (hcache : ∀ r m, oracle r = .body m → m = "" ∨ m = "Not Found")
    (h : repoExists oracle name cache = (.ok ex, cache1, true)) :
    name ∈ cache1.map Prod.fst := by
  rcases hlook : lookupCache cache name with _ | v
  · rcases horacle : oracle name with e1 | e1 | msg <;>
      simp only [repoExists, hlook, horacle] at h
    · simp at h
    · simp at h
    · rcases hcache _ _ horacle with rfl | rfl
      · rw [if_pos rfl] at h
        simp only [Prod.mk.injEq] at h
        obtain ⟨-, rfl, -⟩ := h
        simp
      · norm_num at h
        obtain ⟨-, rfl, -⟩ := h
        simp
  · simp only [repoExists, hlook, Prod.mk.injEq] at h
    obtain ⟨h1, rfl, h3⟩ := h
    simp at h3

theorem countLoop_calls_mono (oracle : String → RepoResp) (tz now : Int) :
    ∀ (events : List Event) (st : CountState) (n : String),
      n ∈ st.calls → n ∈ (countLoop oracle tz now events st).1.calls := by
  intro events
  induction events with
  | nil => intro st n h; exact h
  | cons e rest ih =>
    intro st n h
    by_cases hd : sameDay tz now e.createdAt
    · simp only [countLoop, hd, if_true]
      rcases hrepo : repoExists oracle e.repoName st.cache with ⟨res, cache1, called⟩
      cases res with
      | error err =>
        simp only [List.mem_append]
        exact Or.inl h
      | ok ex =>
        apply ih
        simp only [List.mem_append]
        exact Or.inl h
    · simpa [countLoop, hd] using h

theorem countLoop_calls_nodup (oracle : String → RepoResp) (tz now : Int)
    (hcache : ∀ r m, oracle r = .body m → m = "" ∨ m = "Not Found") :
    ∀ (events : List Event) (st : CountState),
      st.calls.Nodup → (∀ n ∈ st.calls, n ∈ st.cache.map Prod.fst) →
      (countLoop oracle tz now events st).1.calls.Nodup := by
  intro events
  induction events with
  | nil => intro st h1 _; exact h1
  | cons e rest ih =>
    intro st h1 h2
    by_cases hd : sameDay tz now e.createdAt
    · simp only [countLoop, hd, if_true]
      rcases hrepo : repoExists oracle e.repoName st.cache with ⟨res, cache1, called⟩
      obtain ⟨hfalse, htrue, herr, hkeys⟩ :=
        repoExists_spec oracle e.repoName st.cache res cache1 called hrepo
      cases res with
      | error err =>
        obtain ⟨rfl, rfl⟩ := herr err rfl
        obtain ⟨hnk, -⟩ := htrue rfl
        have hnot : e.repoName ∉ st.calls := fun hc => hnk (h2 _ hc)
        simp [List.nodup_append, h1, hnot]
      | ok ex =>
        cases called with
        | false =>
          obtain ⟨rfl, -⟩ := hfalse rfl
          apply ih
          · simpa using h1
          · simpa using h2
        | true =>
          obtain ⟨hnk, -⟩ := htrue rfl
          have hnot : e.repoName ∉ st.calls := fun hc => hnk (h2 _ hc)
          have hmem1 : e.repoName ∈ cache1.map Prod.fst :=
            repoExists_ok_caches oracle e.repoName st.cache cache1 ex hcache hrepo
          apply ih
          · simp [List.nodup_append, h1, hnot]
          · intro n hn
            simp at hn ⊢
            rcases hn with hn | rfl
            · simpa using hkeys n (h2 _ hn)
            · simpa using hmem1
    · simpa [countLoop, hd] using h1


theorem countLoop_covers_calls (oracle : String → RepoResp) (tz now : Int) :
    ∀ (events : List Event) (st : CountState),
      (∀ n ∈ st.cache.map Prod.fst, n ∈ st.calls) →
      (countLoop oracle tz now events st).2 = none →
      ∀ e2 ∈ events.takeWhile (fun ev => sameDay tz now ev.createdAt),
        e2.repoName ∈ (countLoop oracle tz now events st).1.calls := by
  intro events
  induction events with
  | nil => intro st _ _ e2 he2; simp at he2
  | cons e rest ih =>
    intro st hinv hok e2 he2
    by_cases hd : sameDay tz now e.createdAt
    · rw [List.takeWhile_cons] at he2
      simp only [hd, if_true, List.mem_cons] at he2
      simp only [countLoop, hd, if_true] at hok ⊢
      rcases hrepo : repoExists oracle e.repoName st.cache with ⟨res, cache1, called⟩
      rw [hrepo] at hok
      obtain ⟨hfalse, htrue, herr, hkeys⟩ :=
        repoExists_spec oracle e.repoName st.cache res cache1 called hrepo
      cases res with
      | error err => simp at hok
      | ok ex =>
        have hcalls2 : ∀ n ∈ st.calls, n ∈ st.calls ++ (if called = true then [e.repoName] else []) := by
          intro n hn
          simp [List.mem_append]
          exact Or.inl hn
        rcases he2 with rfl | he2
        · cases called with
          | false =>
            obtain ⟨-, hmem⟩ := hfalse rfl
            apply countLoop_calls_mono
            simpa using hcalls2 _ (hinv _ hmem)
          | true =>
            apply countLoop_calls_mono
            simp
        · apply ih
          · intro n hn
            cases called with
            | false =>
              obtain ⟨rfl, -⟩ := hfalse rfl
              simpa using hinv _ (by simpa using hn)
            | true =>
              obtain ⟨-, hsub⟩ := htrue rfl
              rcases hsub n (by simpa using hn) with h3 | rfl
              · simpa using hcalls2 _ (hinv _ h3)
              · simp
          · exact hok
          · exact he2
    · rw [List.takeWhile_cons] at he2
      simp [hd] at he2


theorem c1_counterexample :
    List.Pairwise (fun a b => b.createdAt < a.createdAt) [prDay1, prDay0] ∧
    GetNumberOfContributionsToday ⟨.resp 200 (.ok [prDay1, prDay0]), okOracle, 0, 0⟩ = (0, none) ∧
    naiveFullScanRun ⟨.resp 200 (.ok [prDay1, prDay0]), okOracle, 0, 0⟩ = (1, none) :=
  ⟨by decide, by decide, by decide⟩

theorem c1_early_stop_matches_full_scan (oracle : String → RepoResp) (tz now : Int)
    (events : List Event)
    (hdesc : List.Pairwise (fun a b => b.createdAt < a.createdAt) events)
    (hpast : ∀ e ∈ events, localDay tz e.createdAt ≤ localDay tz now) :
    GetNumberOfContributionsToday ⟨.resp 200 (.ok events), oracle, tz, now⟩ =
      naiveFullScanRun ⟨.resp 200 (.ok events), oracle, tz, now⟩ ∧
    GetNumberOfContributionsToday ⟨.resp 200 (.ok []), oracle, tz, now⟩ = (0, none) := by
  constructor
  · simp only [GetNumberOfContributionsToday, naiveFullScanRun,
      countLoop_eq_fullScan oracle tz now events ⟨0, [], []⟩ hdesc hpast]
  · rfl

theorem c1_early_stop_matches_full_scan_witness :
    GetNumberOfContributionsToday ⟨.resp 200 (.ok [prDay0, prDayMinus1]), okOracle, 0, 0⟩ =
      naiveFullScanRun ⟨.resp 200 (.ok [prDay0, prDayMinus1]), okOracle, 0, 0⟩ :=
  (c1_early_stop_matches_full_scan okOracle 0 0 [prDay0, prDayMinus1]
    (by decide) (by decide)).1

theorem c2_counterexample :
    (countLoop movedOracle 0 0 [prDay0, prDay0] ⟨0, [], []⟩).1.calls = ["r", "r"] ∧
    ¬ (countLoop movedOracle 0 0 [prDay0, prDay0] ⟨0, [], []⟩).1.calls.Nodup :=
  ⟨by decide, by decide⟩

theorem c2_memoized_single_call (oracle : String → RepoResp) (tz now : Int) (events : List Event)
    (hcache : ∀ r m, oracle r = RepoResp.body m → m = "" ∨ m = "Not Found") :
    (countLoop oracle tz now events ⟨0, [], []⟩).1.calls.Nodup ∧
    ((countLoop oracle tz now events ⟨0, [], []⟩).2 = none →
      ∀ e ∈ events.takeWhile (fun ev => sameDay tz now ev.createdAt),
        e.repoName ∈ (countLoop oracle tz now events ⟨0, [], []⟩).1.calls) :=
  ⟨countLoop_calls_nodup oracle tz now hcache events ⟨0, [], []⟩ (by simp) (by simp),
   fun hok => countLoop_covers_calls oracle tz now events ⟨0, [], []⟩ (by simp) hok⟩

theorem c2_memoized_single_call_witness :
    (countLoop okOracle 0 0 [prDay0, prDay0] ⟨0, [], []⟩).1.calls.Nodup :=
  (c2_memoized_single_call okOracle 0 0 [prDay0, prDay0]
    (by intro r m h; simp [okOracle] at h; exact Or.inl h.symm)).1


/-- C4: for every same-day PushEvent on an existing repository, the run
    counts one contribution per commit whose message is not exactly
    Update README.md. -/
theorem c4_push_sentinel_filter (oracle : String → RepoResp) (tz now : Int) (e : Event)
    (htype : e.type = "PushEvent")
    (hday : sameDay tz now e.createdAt = true)
    (hex : oracle e.repoName = .body "") :
    GetNumberOfContributionsToday ⟨.resp 200 (.ok [e]), oracle, tz, now⟩ =
      (((e.commits.filter (fun c => c.message ≠ "Update README.md")).length : Int), none) := by
  have hce : countEvent e = (e.commits.filter (fun c => c.message ≠ "Update README.md")).length := by
    simp [countEvent, htype]
  simp [GetNumberOfContributionsToday, countLoop, repoExists, lookupCache, hday, hex, hce]

/-- C4 witness: one same-day push with a single commit whose message is
    exactly Update README.md, to an existing repository, yields count 0. -/
theorem c4_push_sentinel_filter_witness :
    GetNumberOfContributionsToday ⟨.resp 200 (.ok [readmePushDay0]), okOracle, 0, 0⟩ = (0, none) :=
  (c4_push_sentinel_filter okOracle 0 0 readmePushDay0 rfl (by decide) rfl).trans (by decide)

/-- C5: a same-day CreateEvent on an existing repository counts exactly one
    contribution exactly when its ref type is repository or its ref is
    master, and contributes nothing otherwise. -/
theorem c5_create_event_rule (oracle : String → RepoResp) (tz now : Int) (e : Event)
    (htype : e.type = "CreateEvent")
    (hday : sameDay tz now e.createdAt = true)
    (hex : oracle e.repoName = .body "") :
    (GetNumberOfContributionsToday ⟨.resp 200 (.ok [e]), oracle, tz, now⟩ = (1, none) ↔
      (e.refType = "repository" ∨ e.ref = "master")) ∧
    (¬ (e.refType = "repository" ∨ e.ref = "master") →
      GetNumberOfContributionsToday ⟨.resp 200 (.ok [e]), oracle, tz, now⟩ = (0, none)) := by
  have hrun : GetNumberOfContributionsToday ⟨.resp 200 (.ok [e]), oracle, tz, now⟩ =
      ((countEvent e : Int), none) := by
    simp [GetNumberOfContributionsToday, countLoop, repoExists, lookupCache, hday, hex]
  rw [hrun]
  by_cases hc : e.refType = "repository" ∨ e.ref = "master" <;>
    simp [countEvent, htype, hc]

/-- C5 witness: a same-day creation of the master branch of an existing
    repository counts exactly one contribution. -/
theorem c5_create_event_rule_witness :
    GetNumberOfContributionsToday ⟨.resp 200 (.ok [createMasterDay0]), okOracle, 0, 0⟩ = (1, none) :=
  (c5_create_event_rule okOracle 0 0 createMasterDay0 rfl (by decide) rfl).1.mpr (Or.inr rfl)

/-- C6: a counting run fails exactly when some transport, status, decode or
    mid-scan existence failure occurs, every failing run returns the sentinel
    -1 with a populated error, and every clean run returns a non-negative
    count: no partial counts. -/
theorem c6_failure_sentinel (inp : RunInput) :
    (runFailure inp = true ↔ (GetNumberOfContributionsToday inp).2 ≠ none) ∧
    (((GetNumberOfContributionsToday inp).1 = -1 ∧ (GetNumberOfContributionsToday inp).2 ≠ none) ∨
     (0 ≤ (GetNumberOfContributionsToday inp).1 ∧ (GetNumberOfContributionsToday inp).2 = none)) := by
  rcases inp with ⟨fetch, oracle, tz, now⟩
  cases fetch with
  | reqErr e => simp [runFailure, GetNumberOfContributionsToday]
  | resp status decode =>
    by_cases hs : status = 200
    · subst hs
      cases decode with
      | error e => simp [runFailure, GetNumberOfContributionsToday]
      | ok events =>
        simp only [runFailure, GetNumberOfContributionsToday,
          if_neg (show ¬ ((200 : Nat) ≠ 200) by norm_num)]
        rcases h : countLoop oracle tz now events ⟨0, [], []⟩ with ⟨st, err⟩
        cases err with
        | none => simp [Int.natCast_nonneg]
        | some e => simp
    · simp [runFailure, GetNumberOfContributionsToday, hs]

/-- C7 counterexample: with MIN_CONTRIBUTIONS present and equal to -1, the
    coordinator mutates at count 50 although 50 is not strictly below the
    configured minimum. -/
theorem c7_counterexample :
    shouldMutate (some (-1)) 50 = true ∧ ¬ ((50 : Int) < -1) :=
  ⟨by decide, by decide⟩

/-- C7 (amended): with the minimum absent the coordinator always mutates,
    and with a configured minimum it mutates exactly when the count is
    strictly below the minimum or the minimum is the in-band sentinel -1. -/
theorem c7_min_threshold (c m : Int) :
    shouldMutate none c = true ∧
    (shouldMutate (some m) c = true ↔ (c < m ∨ m = -1)) := by
  constructor
  · simp [shouldMutate]
  · simp [shouldMutate]


/-
  Helper lemmas for the tree walk.
-/

theorem fileScan_length_le (n : Nat) :
    ∀ (listing res : List RepoContent), res.length ≤ n →
      (fileScan n listing res).1.length ≤ n := by
  intro listing
  induction listing with
  | nil => intro res h; exact h
  | cons v rest ih =>
    intro res h
    by_cases hfull : res.length = n
    · simp [fileScan, hfull]
    · simp only [fileScan, hfull, if_false]
      apply ih
      by_cases hv : v.type = "file" ∧ fileCanBeModified v.name
      · simp only [if_pos hv, List.length_append, List.length_cons, List.length_nil]
        omega
      · simpa only [if_neg hv] using h

theorem lookupListing_eq_nil {tree : List (String × List RepoContent)} {url : String}
    (h : url ∉ tree.map Prod.fst) : lookupListing tree url = [] := by
  have hfind : tree.find? (fun p => p.1 = url) = none := by
    apply List.find?_eq_none.mpr
    intro p hp
    simp only [decide_eq_true_eq]
    intro heq
    exact h (heq ▸ List.mem_map_of_mem Prod.fst hp)
  simp [lookupListing, hfind]

theorem walk_offdomain (tree : List (String × List RepoContent)) (n : Nat)
    (fuel : Nat) (url : String) (res : List RepoContent) (st : WalkState)
    (h : lookupListing tree url = []) :
    walk tree n (fuel + 1) url res st =
      some (res, ⟨st.visited ++ [url], st.fetched ++ [url]⟩) := by
  simp [walk, h, fileScan, walkDirs]

theorem walkDirs_pres (walkF : String → WalkState → Option WalkState)
    (P : WalkState → Prop)
    (hF : ∀ u s s1, P s → u ∉ s.visited → walkF u s = some s1 →
      P s1 ∧ (∀ x ∈ s.visited, x ∈ s1.visited)) :
    ∀ (l : List RepoContent) (st st1 : WalkState),
      P st → walkDirs walkF l st = some st1 →
      P st1 ∧ (∀ x ∈ st.visited, x ∈ st1.visited) := by
  intro l
  induction l with
  | nil =>
    intro st st1 hP h
    cases h
    exact ⟨hP, fun x hx => hx⟩
  | cons v rest ih =>
    intro st st1 hP h
    by_cases hv : v.type = "dir" ∧ v.selfLink ∉ st.visited
    · simp only [walkDirs, if_pos hv] at h
      rcases hF2 : walkF v.selfLink st with _ | s1 <;> rw [hF2] at h
      · cases h
      · obtain ⟨hP1, hmono1⟩ := hF _ _ _ hP hv.2 hF2
        obtain ⟨hP2, hmono2⟩ := ih _ _ hP1 h
        exact ⟨hP2, fun x hx => hmono2 _ (hmono1 _ hx)⟩
    · simp only [walkDirs, if_neg hv] at h
      exact ih _ _ hP h

theorem walk_visited_mono (tree : List (String × List RepoContent)) (n : Nat) :
    ∀ (fuel : Nat) (url : String) (res : List RepoContent) (st : WalkState)
      (r : List RepoContent) (st2 : WalkState),
      walk tree n fuel url res st = some (r, st2) →
      ∀ x ∈ st.visited, x ∈ st2.visited := by
  intro fuel
  induction fuel with
  | zero => intro url res st r st2 h; cases h
  | succ fuel ih =>
    intro url res st r st2 h
    simp only [walk] at h
    by_cases hfs : (fileScan n (lookupListing tree url) res).2 = true
    · rw [if_pos hfs] at h
      cases h
      intro x hx
      simp [List.mem_append, hx]
    · rw [if_neg hfs] at h
      rcases Option.map_eq_some'.mp h with ⟨stX, hX, hpair⟩
      obtain ⟨-, hmono⟩ := walkDirs_pres _ (fun _ => True)
        (fun u s s1 _ hu hF => by
          rcases Option.map_eq_some'.mp hF with ⟨⟨r1, s2⟩, hw, hs2⟩
          subst hs2
          exact ⟨trivial, fun x hx => ih u _ s r1 s2 hw x hx⟩)
        (lookupListing tree url) _ _ trivial hX
      intro x hx
      have hx1 : x ∈ st.visited ++ [url] := by simp [List.mem_append, hx]
      have := hmono x hx1
      obtain ⟨rfl, rfl⟩ : (fileScan n (lookupListing tree url) res).1 = r ∧ stX = st2 := by
        cases hpair
        exact ⟨rfl, rfl⟩
      exact this

theorem walk_fetched_good (tree : List (String × List RepoContent)) (n : Nat) :
    ∀ (fuel : Nat) (url : String) (res : List RepoContent) (st : WalkState)
      (r : List RepoContent) (st2 : WalkState),
      walk tree n fuel url res st = some (r, st2) →
      st.fetched.Nodup → (∀ u ∈ st.fetched, u ∈ st.visited) → url ∉ st.visited →
      st2.fetched.Nodup ∧ (∀ u ∈ st2.fetched, u ∈ st2.visited) := by
  intro fuel
  induction fuel with
  | zero => intro url res st r st2 h; cases h
  | succ fuel ih =>
    intro url res st r st2 h hnd hsub hurl
    have hP1 : (st.fetched ++ [url]).Nodup ∧
        (∀ u ∈ st.fetched ++ [url], u ∈ st.visited ++ [url]) := by
      constructor
      · simp only [List.nodup_append, List.nodup_cons, List.not_mem_nil, not_false_iff,
          List.nodup_nil, and_true, true_and]
        constructor
        · exact hnd
        · intro x hx
          simp only [List.mem_singleton]
          intro heq
          subst heq
          exact hurl (hsub _ hx)
      · intro u hu
        simp only [List.mem_append, List.mem_singleton] at hu ⊢
        rcases hu with hu | rfl
        · exact Or.inl (hsub u hu)
        · exact Or.inr rfl
    simp only [walk] at h
    by_cases hfs : (fileScan n (lookupListing tree url) res).2 = true
    · rw [if_pos hfs] at h
      cases h
      exact hP1
    · rw [if_neg hfs] at h
      rcases Option.map_eq_some'.mp h with ⟨stX, hX, hpair⟩
      obtain ⟨hPX, -⟩ := walkDirs_pres _
        (fun s => s.fetched.Nodup ∧ ∀ u ∈ s.fetched, u ∈ s.visited)
        (fun u s s1 hPs hu hF => by
          rcases Option.map_eq_some'.mp hF with ⟨⟨r1, s2⟩, hw, hs2⟩
          subst hs2
          exact ⟨ih u _ s r1 s2 hw hPs.1 hPs.2 hu,
            fun x hx => walk_visited_mono tree n fuel u _ s r1 s2 hw x hx⟩)
        (lookupListing tree url) _ _ hP1 hX
      obtain ⟨rfl, rfl⟩ : (fileScan n (lookupListing tree url) res).1 = r ∧ stX = st2 := by
        cases hpair
        exact ⟨rfl, rfl⟩
      exact hPX

theorem walk_result_shape (tree : List (String × List RepoContent)) (n : Nat)
    (fuel : Nat) (url : String) (res : List RepoContent) (st : WalkState)
    (r : List RepoContent) (st2 : WalkState)
    (h : walk tree n (fuel + 1) url res st = some (r, st2)) :
    r = (fileScan n (lookupListing tree url) res).1 := by
  simp only [walk] at h
  by_cases hfs : (fileScan n (lookupListing tree url) res).2 = true
  · rw [if_pos hfs] at h
    cases h
    rfl
  · rw [if_neg hfs] at h
    rcases Option.map_eq_some'.mp h with ⟨stX, hX, hpair⟩
    cases hpair
    rfl

theorem unvisitedCount_mono (tree : List (String × List RepoContent))
    {v v1 : List String} (h : ∀ x ∈ v, x ∈ v1) :
    unvisitedCount tree v1 ≤ unvisitedCount tree v := by
  apply List.countP_mono_left
  intro a _ ha
  simp only [decide_eq_true_eq] at ha ⊢
  intro hmem
  exact ha (h a hmem)

theorem countP_unvisited_lt (v : List String) (c : String) :
    ∀ l : List String, c ∈ l → c ∉ v →
      l.countP (fun u => decide (u ∉ v ++ [c])) < l.countP (fun u => decide (u ∉ v)) := by
  intro l
  induction l with
  | nil => intro hc; cases hc
  | cons a l ih =>
    intro hc hv
    have hmono : l.countP (fun u => decide (u ∉ v ++ [c])) ≤
        l.countP (fun u => decide (u ∉ v)) := by
      apply List.countP_mono_left
      intro x _ hx
      simp only [decide_eq_true_eq, List.mem_append] at hx ⊢
      intro hmem
      exact hx (Or.inl hmem)
    rcases List.mem_cons.mp hc with rfl | hc2
    · have h1 : decide (c ∉ v ++ [c]) = false := by simp
      have h2 : decide (c ∉ v) = true := by simp [hv]
      simp only [List.countP_cons, h1, h2, Bool.false_eq_true, eq_self_iff_true,
        if_false, if_true]
      omega
    · have hlt := ih hc2 hv
      have hle : (if decide (a ∉ v ++ [c]) = true then 1 else 0) ≤
          (if decide (a ∉ v) = true then 1 else 0) := by
        by_cases h1 : a ∉ v ++ [c]
        · have h2 : a ∉ v := fun hm => h1 (by simp [List.mem_append, hm])
          simp [h1, h2]
        · rcases (by simpa [List.mem_append] using not_not.mp h1 : a ∈ v ∨ a = c) with h2 | rfl
          · simp [h2]
          · simp
      simp only [List.countP_cons]
      omega

theorem unvisitedCount_strict (tree : List (String × List RepoContent))
    {v : List String} {c : String} (hc : c ∈ tree.map Prod.fst) (hv : c ∉ v) :
    unvisitedCount tree (v ++ [c]) < unvisitedCount tree v :=
  countP_unvisited_lt v c (tree.map Prod.fst) hc hv

theorem unvisitedCount_le (tree : List (String × List RepoContent)) (v : List String) :
    unvisitedCount tree v ≤ tree.length := by
  calc unvisitedCount tree v ≤ (tree.map Prod.fst).length := List.countP_le_length _
  _ = tree.length := List.length_map _ _


theorem walkDirs_total (walkF : String → WalkState → Option WalkState)
    (Q : WalkState → Prop)
    (hQsome : ∀ u s, Q s → u ∉ s.visited → ∃ s1, walkF u s = some s1)
    (hQpres : ∀ u s s1, Q s → u ∉ s.visited → walkF u s = some s1 → Q s1) :
    ∀ (l : List RepoContent) (st : WalkState), Q st →
      ∃ st1, walkDirs walkF l st = some st1 := by
  intro l
  induction l with
  | nil => intro st _; exact ⟨st, rfl⟩
  | cons v rest ih =>
    intro st hQ
    by_cases hv : v.type = "dir" ∧ v.selfLink ∉ st.visited
    · obtain ⟨s1, hs1⟩ := hQsome _ _ hQ hv.2
      obtain ⟨st1, hst1⟩ := ih s1 (hQpres _ _ _ hQ hv.2 hs1)
      exact ⟨st1, by simp only [walkDirs, if_pos hv, hs1, hst1]⟩
    · obtain ⟨st1, hst1⟩ := ih st hQ
      exact ⟨st1, by simp only [walkDirs, if_neg hv, hst1]⟩

theorem walk_total (tree : List (String × List RepoContent)) (n : Nat) :
    ∀ (fuel : Nat) (url : String) (res : List RepoContent) (st : WalkState),
      unvisitedCount tree (st.visited ++ [url]) + 2 ≤ fuel →
      ∃ out, walk tree n fuel url res st = some out := by
  intro fuel
  induction fuel using Nat.strong_induction_on with
  | _ fuel ih =>
    intro url res st hb
    obtain ⟨f0, rfl⟩ : ∃ f0, fuel = f0 + 1 := ⟨fuel - 1, by omega⟩
    simp only [walk]
    by_cases hfs : (fileScan n (lookupListing tree url) res).2 = true
    · rw [if_pos hfs]
      exact ⟨_, rfl⟩
    · rw [if_neg hfs]
      have hQ1 : unvisitedCount tree (st.visited ++ [url]) + 1 ≤ f0 := by omega
      obtain ⟨stX, hX⟩ := walkDirs_total
        (fun u s => (walk tree n f0 u (fileScan n (lookupListing tree url) res).1 s).map Prod.snd)
        (fun s => unvisitedCount tree s.visited + 1 ≤ f0)
        (fun u s hQ hu => by
          by_cases hdom : u ∈ tree.map Prod.fst
          · have hlt : unvisitedCount tree (s.visited ++ [u]) < unvisitedCount tree s.visited :=
              unvisitedCount_strict tree hdom hu
            obtain ⟨⟨r1, s1⟩, hw⟩ := ih f0 (by omega) u
              (fileScan n (lookupListing tree url) res).1 s (by omega)
            exact ⟨s1, by simp [hw]⟩
          · obtain ⟨f1, rfl⟩ : ∃ f1, f0 = f1 + 1 := ⟨f0 - 1, by omega⟩
            refine ⟨⟨s.visited ++ [u], s.fetched ++ [u]⟩, ?_⟩
            show (walk tree n (f1 + 1) u (fileScan n (lookupListing tree url) res).1 s).map
              Prod.snd = some ⟨s.visited ++ [u], s.fetched ++ [u]⟩
            rw [walk_offdomain tree n f1 u _ s (lookupListing_eq_nil hdom)]
            rfl)
        (fun u s s1 hQ hu hF => by
          rcases Option.map_eq_some'.mp hF with ⟨⟨r1, s2⟩, hw, hs2⟩
          subst hs2
          show unvisitedCount tree s2.visited + 1 ≤ f0
          have hmono := walk_visited_mono tree n f0 u _ s r1 s2 hw
          have hle := unvisitedCount_mono tree hmono
          omega)
        (lookupListing tree url) ⟨st.visited ++ [url], st.fetched ++ [url]⟩ hQ1
      exact ⟨_, by rw [hX]; rfl⟩

/-- C3 counterexample: on a tree whose root directory links to itself, the
    draft variant of GetRepoContents (src/unnamed/part_002, which has no
    visited set) completes for NO recursion depth bound: the walk never
    terminates on this cyclic link structure. -/
theorem c3_counterexample :
    ¬ ∃ (fuel : Nat) (st : DraftState),
        walkDraft selfLoopTree 1 "root" fuel "root" [] ⟨[], false⟩ = some st := by
  rintro ⟨fuel, st, h⟩
  have hnone : ∀ f, walkDraft selfLoopTree 1 "root" f "root" [] ⟨[], false⟩ = none := by
    intro f
    induction f with
    | zero => rfl
    | succ f ihf =>
      have hstep : walkDraft selfLoopTree 1 "root" (f + 1) "root" [] ⟨[], false⟩ =
          match walkDraftDirs (fun u s => walkDraft selfLoopTree 1 "root" f u [] s) 1 []
              (lookupListing selfLoopTree "root") ⟨[], false⟩ with
          | none => none
          | some (st1, earlyRet) =>
            if earlyRet then some st1 else some ⟨st1.outputs ++ [[]], st1.term⟩ := rfl
      have hstep2 : walkDraftDirs (fun u s => walkDraft selfLoopTree 1 "root" f u [] s) 1 []
          (lookupListing selfLoopTree "root") ⟨[], false⟩ =
          match walkDraft selfLoopTree 1 "root" f "root" [] ⟨[], false⟩ with
          | none => none
          | some st1 =>
            walkDraftDirs (fun u s => walkDraft selfLoopTree 1 "root" f u [] s) 1 [] [] st1 := rfl
      rw [hstep, hstep2, ihf]
  rw [hnone fuel] at h
  cases h

/-- C3 (amended, for the visited-set variant of src/cmd/repo.go): on every
    tree shape, including self or ancestor directory links, the walk from an
    empty state completes within fuel bounded by the number of listing URLs,
    its result never exceeds n descriptors, and no URL is ever fetched twice
    (in particular no URL already in the visited set is fetched again). -/
theorem c3_visited_walk_safe (tree : List (String × List RepoContent)) (n : Nat)
    (url : String) :
    ∃ (r : List RepoContent) (st : WalkState),
      walk tree n (tree.length + 2) url [] ⟨[], []⟩ = some (r, st) ∧
      r.length ≤ n ∧ st.fetched.Nodup := by
  obtain ⟨⟨r, st⟩, h⟩ := walk_total tree n (tree.length + 2) url [] ⟨[], []⟩ (by
    show unvisitedCount tree ([] ++ [url]) + 2 ≤ tree.length + 2
    have := unvisitedCount_le tree ([] ++ [url])
    omega)
  refine ⟨r, st, h, ?_, ?_⟩
  · have hr := walk_result_shape tree n (tree.length + 1) url [] ⟨[], []⟩ r st h
    rw [hr]
    exact fileScan_length_le n (lookupListing tree url) [] (Nat.zero_le n)
  · exact (walk_fetched_good tree n (tree.length + 2) url [] ⟨[], []⟩ r st h
      List.nodup_nil (by simp) (by simp)).1

/-- C10: the walk's result list is passed by value into recursive calls, so
    the result a call returns is exactly what its own file scan of its own
    listing produced: nothing appended while scanning subdirectories is
    visible in it. -/
theorem c10_result_by_value (tree : List (String × List RepoContent)) (n : Nat)
    (fuel : Nat) (url : String) (res : List RepoContent) (st : WalkState)
    (r : List RepoContent) (st2 : WalkState)
    (h : walk tree n (fuel + 1) url res st = some (r, st2)) :
    r = (fileScan n (lookupListing tree url) res).1 :=
  walk_result_shape tree n fuel url res st r st2 h

/-- C10 witness: on a tree whose root holds no matching file but whose
    subdirectory holds one, the top-level walk returns the root's own (empty)
    file scan: the file collected inside the subdirectory is absent. -/
theorem c10_result_by_value_witness :
    ([] : List RepoContent) = (fileScan 1 (lookupListing subdirFileTree "root") []).1 :=
  c10_result_by_value subdirFileTree 1 2 "root" [] ⟨[], []⟩ []
    ⟨["root", "subURL"], ["root", "subURL"]⟩ (by decide)


/-
  Helper lemmas for the file mutator.
-/

theorem pickName_fresh (gen : Nat → String) (contents : List RepoContent) :
    ∀ (fuel k : Nat) (nm : String) (k1 : Nat),
      pickName gen contents k fuel = some (nm, k1) →
      ∀ v ∈ contents, nm ≠ v.path := by
  intro fuel
  induction fuel with
  | zero => intro k nm k1 h; cases h
  | succ fuel ih =>
    intro k nm k1 h
    by_cases hc : contents.any (fun v => gen k ++ ".go" = v.path)
    · simp only [pickName, if_pos hc] at h
      exact ih _ _ _ h
    · simp only [pickName, if_neg hc] at h
      obtain ⟨rfl, rfl⟩ : gen k ++ ".go" = nm ∧ k + 1 = k1 := by simpa using h
      intro v hv heq
      apply hc
      simp only [List.any_eq_true]
      exact ⟨v, hv, by simp [heq]⟩

theorem synthesize_spec (gen : Nat → String) (nRequired : Nat) :
    ∀ (steps : Nat) (contents : List RepoContent) (k fuel : Nat) (full : List RepoContent),
      synthesize gen nRequired steps contents k fuel = some full →
      contents.length ≤ nRequired →
      full.take contents.length = contents ∧
      full.length = nRequired ∧
      (∀ d ∈ full.drop contents.length, d.sha = "" ∧ d.type = "file" ∧ d.name = d.path) ∧
      ((full.drop contents.length).map (fun d => d.path)).Nodup ∧
      (∀ p ∈ (full.drop contents.length).map (fun d => d.path),
        p ∉ contents.map (fun d => d.path)) := by
  intro steps
  induction steps with
  | zero =>
    intro contents k fuel full hs hlen
    by_cases hlt : contents.length < nRequired
    · simp only [synthesize, if_pos hlt] at hs
      cases hs
    · simp only [synthesize, if_neg hlt] at hs
      cases hs
      refine ⟨List.take_length _, by omega, ?_, ?_, ?_⟩
      · intro d hd
        rw [List.drop_length] at hd
        cases hd
      · rw [List.drop_length]
        exact List.nodup_nil
      · intro p hp
        rw [List.drop_length] at hp
        cases hp
  | succ steps ih =>
    intro contents k fuel full hs hlen
    by_cases hlt : contents.length < nRequired
    · simp only [synthesize, if_pos hlt] at hs
      rcases hpick : pickName gen contents k fuel with _ | ⟨nm, k1⟩ <;> rw [hpick] at hs
      · cases hs
      · have hfresh := pickName_fresh gen contents fuel k nm k1 hpick
        have ihres := ih (contents ++ [⟨nm, nm, "", "file", ""⟩]) k1 fuel full hs
          (by simp only [List.length_append, List.length_cons, List.length_nil]; omega)
        obtain ⟨htake, hlenf, hprops, hnodup, hfreshrest⟩ := ihres
        have htake1 : full.take (contents.length + 1) = contents ++ [⟨nm, nm, "", "file", ""⟩] := by
          simpa using htake
        have hsplit : full = (contents ++ [⟨nm, nm, "", "file", ""⟩]) ++
            full.drop (contents.length + 1) := by
          conv_lhs => rw [← List.take_append_drop (contents.length + 1) full, htake1]
        have hdropIH : full.drop (contents ++ [(⟨nm, nm, "", "file", ""⟩ : RepoContent)]).length =
            full.drop (contents.length + 1) := by
          simp
        have hdrop : full.drop contents.length =
            (⟨nm, nm, "", "file", ""⟩ : RepoContent) :: full.drop (contents.length + 1) := by
          conv_lhs => rw [hsplit]
          rw [show (contents ++ [(⟨nm, nm, "", "file", ""⟩ : RepoContent)]) ++
              full.drop (contents.length + 1) =
              contents ++ ((⟨nm, nm, "", "file", ""⟩ : RepoContent) ::
                full.drop (contents.length + 1)) by simp]
          exact List.drop_left contents _
        rw [hdropIH] at hprops hnodup hfreshrest
        refine ⟨?_, by omega, ?_, ?_, ?_⟩
        · have h2 : full.take contents.length =
              (full.take (contents.length + 1)).take contents.length := by
            rw [List.take_take]
            congr 1
            omega
          rw [h2, htake1, List.take_append_of_le_length (by omega), List.take_length]
        · rw [hdrop]
          intro d hd
          rcases List.mem_cons.mp hd with rfl | hd2
          · exact ⟨rfl, rfl, rfl⟩
          · exact hprops d hd2
        · rw [hdrop]
          simp only [List.map_cons, List.nodup_cons]
          refine ⟨?_, hnodup⟩
          intro hmem
          have := hfreshrest _ hmem
          simp at this
        · rw [hdrop]
          intro p hp
          simp only [List.map_cons, List.mem_cons] at hp
          rcases hp with rfl | hp2
          · intro hmem
            rcases List.mem_map.mp hmem with ⟨v, hv, hveq⟩
            exact hfresh v hv hveq.symm
          · intro hmem
            apply hfreshrest _ hp2
            simp only [List.map_append, List.mem_append]
            exact Or.inl hmem
    · simp only [synthesize, if_neg hlt] at hs
      cases hs
      refine ⟨List.take_length _, by omega, ?_, ?_, ?_⟩
      · intro d hd
        rw [List.drop_length] at hd
        cases hd
      · rw [List.drop_length]
        exact List.nodup_nil
      · intro p hp
        rw [List.drop_length] at hp
        cases hp

/-- C8: whenever the synthesis loop completes, UpdateFilesAndCreateRemaining
    first extends the input descriptors to exactly the required count with
    create descriptors (empty content identifier, kind file), no generated
    filename equals the path of any pre-existing descriptor or of any
    descriptor generated earlier in the batch, and only then is every
    descriptor uploaded. -/
theorem c8_synthesize_unique (gen : Nat → String) (outcomes : RepoContent → UploadOutcome)
    (nRequired : Nat) (contents : List RepoContent) (k fuel : Nat)
    (full : List RepoContent) (msgs : List UploadMsg)
    (hlen : contents.length ≤ nRequired)
    (hs : UpdateFilesAndCreateRemaining gen outcomes nRequired contents k fuel =
      some (full, msgs)) :
    full.take contents.length = contents ∧
    full.length = nRequired ∧
    (full.drop contents.length).length = nRequired - contents.length ∧
    (∀ d ∈ full.drop contents.length, d.sha = "" ∧ d.type = "file" ∧ d.name = d.path) ∧
    ((full.drop contents.length).map (fun d => d.path)).Nodup ∧
    (∀ p ∈ (full.drop contents.length).map (fun d => d.path),
      p ∉ contents.map (fun d => d.path)) ∧
    msgs = uploadAll outcomes full := by
  obtain ⟨fullX, hsyn, hpair⟩ := Option.map_eq_some'.mp hs
  obtain ⟨heq, hmsgs⟩ : fullX = full ∧ uploadAll outcomes fullX = msgs := by
    simpa [Prod.mk.injEq] using hpair
  rw [heq] at hsyn hmsgs
  obtain ⟨h1, h2, h3, h4, h5⟩ := synthesize_spec gen nRequired
    (nRequired - contents.length) contents k fuel full hsyn hlen
  exact ⟨h1, h2, by rw [List.length_drop]; omega, h3, h4, h5, hmsgs.symm⟩

/-- C8 witness: with 2 descriptors found and 5 required, the mutator appends
    exactly 3 fresh create descriptors whose generated names collide with
    nothing, then uploads all 5. -/
theorem c8_synthesize_unique_witness :
    (((twoFiles ++ ([⟨"t0.go", "t0.go", "", "file", ""⟩, ⟨"t1.go", "t1.go", "", "file", ""⟩,
        ⟨"t2.go", "t2.go", "", "file", ""⟩] : List RepoContent)).drop twoFiles.length).map
          (fun d => d.path)).Nodup ∧
    (twoFiles ++ ([⟨"t0.go", "t0.go", "", "file", ""⟩, ⟨"t1.go", "t1.go", "", "file", ""⟩,
        ⟨"t2.go", "t2.go", "", "file", ""⟩] : List RepoContent)).length = 5 := by
  have h := c8_synthesize_unique genNames (fun _ => .ok) 5 twoFiles 0 4
    (twoFiles ++ ([⟨"t0.go", "t0.go", "", "file", ""⟩, ⟨"t1.go", "t1.go", "", "file", ""⟩,
      ⟨"t2.go", "t2.go", "", "file", ""⟩] : List RepoContent))
    [.done, .done, .done, .done, .done] (by decide) (by decide)
  exact ⟨h.2.2.2.2.1, h.2.1⟩

/-- C9: in a mutating run, each descriptor's upload message depends only on
    that descriptor's own outcome (exactly one create-or-update call per
    descriptor, unaffected by other files' failures), and the run exits 0
    regardless of per-file upload failures. -/
theorem c9_upload_isolated (inp : CoordInput) (c : Int) (contents full : List RepoContent)
    (msgs : List UploadMsg)
    (hc : inp.contribution = .ok c)
    (hm : shouldMutate inp.minCont c = true)
    (hr : inp.repoContents = .ok contents)
    (hu : UpdateFilesAndCreateRemaining inp.gen inp.outcomes inp.nRequired contents 0
      inp.nameFuel = some (full, msgs)) :
    runMain inp = some (0, msgs) ∧
    msgs = full.map (fun v => UploadFile (inp.outcomes v) v.path) ∧
    msgs.length = full.length := by
  have hmsgs : msgs = uploadAll inp.outcomes full := by
    obtain ⟨fullX, hsyn, hpair⟩ := Option.map_eq_some'.mp hu
    obtain ⟨heq, hmm⟩ : fullX = full ∧ uploadAll inp.outcomes fullX = msgs := by
      simpa [Prod.mk.injEq] using hpair
    rw [heq] at hmm
    exact hmm.symm
  refine ⟨?_, by rw [hmsgs]; rfl, by rw [hmsgs]; simp [uploadAll]⟩
  simp only [runMain, hc, hm, hr, hu, eq_self_iff_true, if_true]

/-- C9 witness: with two descriptors where the first upload fails in
    transport and the second succeeds, the run still performs both calls,
    reports the error beside the success, and exits 0. -/
theorem c9_upload_isolated_witness :
    runMain ⟨.ok 0, none, .ok twoFiles, 2, genNames, oneFailure, 3⟩ =
      some (0, [UploadMsg.err "Error sending PUT request to a.go: connection reset",
        UploadMsg.done]) :=
  (c9_upload_isolated ⟨.ok 0, none, .ok twoFiles, 2, genNames, oneFailure, 3⟩ 0
    twoFiles twoFiles
    [UploadMsg.err "Error sending PUT request to a.go: connection reset", UploadMsg.done]
    rfl (by decide) rfl (by decide)).1

end CommitCron
